import Mathlib

/-!
A shallow embedding of the EventTimings distributed aggregation core
(src/EventUtils.hpp, src/EventUtils.cpp), with proofs about the behaviour
of its data model and operations.

Conventions of the embedding:

* `Event::Clock` is `std::chrono::steady_clock`; on the targeted platform
  (Linux / libstdc++) its duration representation is a signed 64-bit count
  of nanoseconds.  Durations and time points are modelled as `Int` tick
  counts; the int64 / int32 ranges are imposed through explicit wrap
  functions (`wrap64`, `wrap32`) wherever the C++ code computes on machine
  integers.
* `std::chrono::duration_cast<std::chrono::milliseconds>` truncates toward
  zero.  C++ integer division also truncates toward zero.  Both are
  `Int.tdiv` (note that Lean's `/` on `Int` is Euclidean division, which
  differs on negative operands, so `Int.tdiv` is used explicitly).
* `std::map` is modelled as an association list strictly sorted by key;
  its iteration order is the sorted key order, exactly as in the source.
* A failed `assert` (which aborts the program) and undefined behaviour are
  modelled with `Option`: `none` is the aborted / undefined outcome.
-/

namespace EventTimings

/-- Number of steady-clock ticks (nanoseconds) per millisecond. -/
def nsPerMs : Int := 1000000

/-- The int64 minimum, i.e. the tick count of
`Event::Clock::duration::min()`, the initial value of `EventData::max`. -/
def sentinelMin : Int := -(2 ^ 63)

/-- The int64 maximum, i.e. the tick count of
`Event::Clock::duration::max()`, the initial value of `EventData::min`. -/
def sentinelMax : Int := 2 ^ 63 - 1

/-- Reduce an integer into the signed 64-bit range (two's-complement
wraparound of `long` arithmetic). -/
def wrap64 (x : Int) : Int := (x + 2 ^ 63) % 2 ^ 64 - 2 ^ 63

/-- `duration_cast<milliseconds>(t).count()` on a tick count: division by
`10^6` truncating toward zero. -/
def toMs (t : Int) : Int := t.tdiv nsPerMs

/-- One state change: a label and a steady-clock time point (tick count).
This is `Event::StateChanges::value_type`,
`std::pair<Event::State, Event::Clock::time_point>`. -/
abbrev StateChange := String × Int

/-- Modelled from the spec: Event.hpp is not under src/.  Spec §6 gives the
shape of a completed occurrence consumed by the aggregator:
`{name, duration, data : sequence<int>, stateChanges : sequence<(label, timestamp)>}`.
`duration` is the value `event->getDuration()` returns, in clock ticks. -/
structure Event where
  name : String
  duration : Int
  data : List Int
  stateChanges : List StateChange
  deriving DecidableEq, Repr

/-- Per-event aggregator (`class EventData`).  In-class initialisers give
`max = duration::min()`, `min = duration::max()`, `total = zero()` and
`count = 0`.  The member `int rank;` is declared without an initialiser and
is never assigned anywhere in the two source files, so it is modelled as an
`Option Int` that stays `none` while the member holds an indeterminate
value. -/
structure EventData where
  max : Int := sentinelMin
  min : Int := sentinelMax
  total : Int := 0
  rank : Option Int := none
  stateChanges : List StateChange := []
  name : String
  count : Int := 0
  data : List Int := []
  deriving DecidableEq, Repr

/-- `EventData::EventData(std::string _name)`: only `name` is set; all other
members keep their in-class initialisers and `rank` stays indeterminate. -/
def EventData.make (_name : String) : EventData := { name := _name }

/-- `EventData::put(Event*)`: `count++`, `total += duration`,
`min = std::min(duration, min)`, `max = std::max(duration, max)`, and the
occurrence's sample data and state changes are appended at the end.
`count` and `total` are 64-bit machine integers, hence the wrap. -/
def EventData.put (ed : EventData) (event : Event) : EventData :=
  { ed with
    count := wrap64 (ed.count + 1)
    total := wrap64 (ed.total + event.duration)
    min := Min.min event.duration ed.min
    max := Max.max event.duration ed.max
    data := ed.data ++ event.data
    stateChanges := ed.stateChanges ++ event.stateChanges }

/-- `EventData::getAvg`:
`(duration_cast<milliseconds>(total) / count).count()`.  For `count == 0`
the integer division is undefined behaviour (the header documents no guard),
modelled as `none`. -/
def EventData.getAvg (ed : EventData) : Option Int :=
  if ed.count = 0 then none else some ((toMs ed.total).tdiv ed.count)

/-- `EventData::getData`. -/
def EventData.getData (ed : EventData) : List Int := ed.data

/-- Per-process snapshot (`class RankData`).  `evData` is a
`std::map<std::string, EventData>`, modelled as an association list strictly
sorted by key.  The clock members hold `time_since_epoch().count()` tick
values; default construction gives the clocks' epoch (0) and
`isFinalized = false`. -/
structure RankData where
  evData : List (String × EventData) := []
  initializedAt : Int := 0
  finalizedAt : Int := 0
  initializedAtTicks : Int := 0
  finalizedAtTicks : Int := 0
  isFinalized : Bool := false
  deriving DecidableEq, Repr

/-- `std::map::emplace` followed by an in-place update of the entry the
returned iterator points at: if `k` is absent, `(k, v)` is inserted at its
sorted position; the entry at `k` (pre-existing or fresh) is then updated
with `f`.  With `f = id` this is plain `emplace` (no overwrite). -/
def mapEmplaceThen (k : String) (v : EventData) (f : EventData → EventData) :
    List (String × EventData) → List (String × EventData)
  | [] => [(k, f v)]
  | (k', v') :: t =>
    if k = k' then (k', f v') :: t
    else if k < k' then (k, f v) :: (k', v') :: t
    else (k', v') :: mapEmplaceThen k v f t

/-- `RankData::put(Event*)`: construct-or-find the `EventData` keyed by the
event's name (the name-only constructor is used for a fresh entry — no rank
is stamped), then merge the occurrence into it. -/
def RankData.put (rd : RankData) (event : Event) : RankData :=
  { rd with
    evData := mapEmplaceThen event.name (EventData.make event.name)
      (fun ed => ed.put event) rd.evData }

/-- The per-timestamp shift inside `RankData::normalizeTo`:
`tp = stdy_clk::time_point(tp - initializedAtTicks + delta)`. -/
def shiftSC (initTicks delta : Int) (sc : StateChange) : StateChange :=
  (sc.1, sc.2 - initTicks + delta)

/-- The inner loop of `RankData::normalizeTo` applied to one `EventData`:
every state-change time point is shifted, everything else is untouched. -/
def shiftED (initTicks delta : Int) (ed : EventData) : EventData :=
  { ed with stateChanges := ed.stateChanges.map (shiftSC initTicks delta) }

/-- `RankData::normalizeTo(t0)`, with the local
`delta = initializedAt - t0` inlined: `assert(t0 <= initializedAt)`; every
state-change time point of every event is shifted by
`- initializedAtTicks + delta`, and each shifted value is checked by
`assert(tp.time_since_epoch().count() > 0)` ("Trying to do normalize
twice?").  A failed assert aborts the program: `none`.  No clamping takes
place: on success the stored timestamps are exactly the shifted values. -/
def RankData.normalizeTo (rd : RankData) (t0 : Int) : Option RankData :=
  if t0 ≤ rd.initializedAt then
    if rd.evData.all (fun p => p.2.stateChanges.all
        (fun sc => decide (0 <
          (shiftSC rd.initializedAtTicks (rd.initializedAt - t0) sc).2))) then
      some { rd with evData := rd.evData.map (fun p =>
        (p.1, shiftED rd.initializedAtTicks (rd.initializedAt - t0) p.2)) }
    else none
  else none

/-- The `MPI_Allreduce(&ticks, &minTicks, 1, MPI_LONG, MPI_MIN, comm)` of
`EventRegistry::normalize`: the minimum of every participating rank's
`initializedAt.time_since_epoch().count()`.  A reduction has no neutral
start element; it folds over the nonempty participant list. -/
def reduceMinInit : List RankData → Int
  | [] => 0
  | rd :: t => t.foldl (fun acc r => Min.min acc r.initializedAt) rd.initializedAt

/-- `struct GlobalEventStats`: `int maxRank, minRank;` are declared without
initialisers (indeterminate until first assignment, modelled as `Option`),
`max` and `min` start at the duration sentinels. -/
structure GlobalEventStats where
  maxRank : Option Nat := none
  minRank : Option Nat := none
  max : Int := sentinelMin
  min : Int := sentinelMax
  deriving DecidableEq, Repr

/-- The loop body of `getGlobalStats` for one `EventData` of rank `rank`:
`if (event.max > stats.max) { stats.max = event.max; stats.maxRank = rank; }`
and then the analogous update for `min`. -/
def mergeStats (rank : Nat) (event : EventData) (stats : GlobalEventStats) :
    GlobalEventStats :=
  let s1 := if stats.max < event.max
    then { stats with max := event.max, maxRank := some rank } else stats
  if event.min < s1.min
    then { s1 with min := event.min, minRank := some rank } else s1

/-- `globalStats[name]` followed by the in-place update of the referenced
entry: `std::map::operator[]` default-constructs an absent entry at its
sorted position, then `f` is applied to the entry. -/
def statsUpd (k : String) (f : GlobalEventStats → GlobalEventStats) :
    List (String × GlobalEventStats) → List (String × GlobalEventStats)
  | [] => [(k, f {})]
  | (k', v) :: t =>
    if k = k' then (k', f v) :: t
    else if k < k' then (k, f {}) :: (k', v) :: t
    else (k', v) :: statsUpd k f t

/-- Inner loop of `getGlobalStats`: fold one rank's `evData` into the
accumulated stats map. -/
def statsOfRank (rank : Nat) (rd : RankData)
    (gs : List (String × GlobalEventStats)) :
    List (String × GlobalEventStats) :=
  rd.evData.foldl (fun gs p => statsUpd p.1 (mergeStats rank p.2) gs) gs

/-- Outer loop of `getGlobalStats`
(`for (size_t rank = 0; rank < events.size(); ++rank)`), carrying the rank
index. -/
def getGlobalStatsAux (rank : Nat) :
    List RankData → List (String × GlobalEventStats) →
    List (String × GlobalEventStats)
  | [], gs => gs
  | rd :: t, gs => getGlobalStatsAux (rank + 1) t (statsOfRank rank rd gs)

/-- `getGlobalStats(std::vector<RankData> events)`. -/
def getGlobalStats (events : List RankData) :
    List (String × GlobalEventStats) :=
  getGlobalStatsAux 0 events []

/-- One row of the table printed by `EventRegistry::printGlobalStats`. -/
structure StatsRow where
  name : String
  max : Int
  maxRank : Option Nat
  min : Int
  minRank : Option Nat
  rel : ℚ
  deriving DecidableEq, Repr

/-- The `Min/Max` column of `printGlobalStats`:
`double rel = 0; if (ev.max != stdy_clk::duration::zero()) rel = min / max;`.
The C++ division is performed in `double`; the guard decision and the
guarded value (exactly 0) are representation-independent, and the quotient
itself is modelled exactly, as a rational. -/
def relOf (ev : GlobalEventStats) : ℚ :=
  if ev.max ≠ 0 then (ev.min : ℚ) / (ev.max : ℚ) else 0

/-- The rows `printGlobalStats` prints, one per entry of the stats map
computed from `globalRankData`. -/
def printGlobalStatsRows (globalRankData : List RankData) : List StatsRow :=
  (getGlobalStats globalRankData).map (fun e =>
    { name := e.1, max := e.2.max, maxRank := e.2.maxRank,
      min := e.2.min, minRank := e.2.minRank, rel := relOf e.2 })

/-- Keys of an association list are strictly increasing — the `std::map`
representation invariant. -/
def SortedKeys {β : Type} (l : List (String × β)) : Prop :=
  l.Pairwise (fun a b => a.1 < b.1)

instance {β : Type} (l : List (String × β)) : Decidable (SortedKeys l) :=
  inferInstanceAs (Decidable (l.Pairwise (fun (a b : String × β) => a.1 < b.1)))

/-- Merging a whole list of occurrences with `EventData::put`, in order. -/
def putList (ed : EventData) (l : List Event) : EventData :=
  l.foldl EventData.put ed

/-! ### Arithmetic and fold helpers -/

theorem wrap64_eq_self {x : Int} (h1 : sentinelMin ≤ x) (h2 : x ≤ sentinelMax) :
    wrap64 x = x := by
  simp only [wrap64, sentinelMin, sentinelMax] at *
  omega

theorem sum_duration_nonneg {l : List Event} (hd : ∀ e ∈ l, 0 ≤ e.duration) :
    0 ≤ (l.map Event.duration).sum := by
  refine List.sum_nonneg ?_
  intro x hx
  obtain ⟨e, he, rfl⟩ := List.mem_map.mp hx
  exact hd e he

theorem foldl_max_le_self (l : List Int) (a : Int) : a ≤ l.foldl Max.max a := by
  induction l generalizing a with
  | nil => simp
  | cons d t ih => exact le_trans (le_max_left a d) (ih (Max.max a d))

theorem le_foldl_max (l : List Int) (a : Int) : ∀ d ∈ l, d ≤ l.foldl Max.max a := by
  induction l generalizing a with
  | nil => simp
  | cons x t ih =>
    intro d hd
    rcases List.mem_cons.mp hd with rfl | h
    · exact le_trans (le_max_right a d) (foldl_max_le_self t (Max.max a d))
    · exact ih (Max.max a x) d h

theorem foldl_max_mem_or (l : List Int) (a : Int) :
    l.foldl Max.max a = a ∨ l.foldl Max.max a ∈ l := by
  induction l generalizing a with
  | nil => simp
  | cons x t ih =>
    rcases ih (Max.max a x) with h | h
    · rcases le_total a x with hx | hx
      · right
        rw [List.foldl_cons, h, max_eq_right hx]
        exact List.mem_cons_self x t
      · left
        rw [List.foldl_cons, h, max_eq_left hx]
    · right
      exact List.mem_cons_of_mem _ h

theorem foldl_min_le_self (l : List Int) (a : Int) : l.foldl Min.min a ≤ a := by
  induction l generalizing a with
  | nil => simp
  | cons d t ih => exact le_trans (ih (Min.min a d)) (min_le_left a d)

theorem foldl_min_le (l : List Int) (a : Int) : ∀ d ∈ l, l.foldl Min.min a ≤ d := by
  induction l generalizing a with
  | nil => simp
  | cons x t ih =>
    intro d hd
    rcases List.mem_cons.mp hd with rfl | h
    · exact le_trans (foldl_min_le_self t (Min.min a d)) (min_le_right a d)
    · exact ih (Min.min a x) d h

theorem foldl_min_mem_or (l : List Int) (a : Int) :
    l.foldl Min.min a = a ∨ l.foldl Min.min a ∈ l := by
  induction l generalizing a with
  | nil => simp
  | cons x t ih =>
    rcases ih (Min.min a x) with h | h
    · rcases le_total x a with hx | hx
      · right
        rw [List.foldl_cons, h, min_eq_right hx]
        exact List.mem_cons_self x t
      · left
        rw [List.foldl_cons, h, min_eq_left hx]
    · right
      exact List.mem_cons_of_mem _ h

theorem mul_length_le_sum {L : List Int} {m : Int} (h : ∀ x ∈ L, m ≤ x) :
    m * L.length ≤ L.sum := by
  induction L with
  | nil => simp
  | cons x t ih =>
    have hx := h x (List.mem_cons_self x t)
    have ht := ih (fun y hy => h y (List.mem_cons_of_mem x hy))
    simp only [List.length_cons, List.sum_cons]
    push_cast
    nlinarith

theorem sum_le_mul_length {L : List Int} {M : Int} (h : ∀ x ∈ L, x ≤ M) :
    L.sum ≤ M * L.length := by
  induction L with
  | nil => simp
  | cons x t ih =>
    have hx := h x (List.mem_cons_self x t)
    have ht := ih (fun y hy => h y (List.mem_cons_of_mem x hy))
    simp only [List.length_cons, List.sum_cons]
    push_cast
    nlinarith

/-! ### Characterisation of a sequence of `EventData::put` calls -/

theorem putList_spec (l : List Event) (ed : EventData)
    (hc0 : 0 ≤ ed.count)
    (hcl : ed.count + (l.length : Int) ≤ sentinelMax)
    (ht0 : 0 ≤ ed.total)
    (hts : ed.total + (l.map Event.duration).sum ≤ sentinelMax)
    (hd : ∀ e ∈ l, 0 ≤ e.duration) :
    (putList ed l).count = ed.count + (l.length : Int) ∧
    (putList ed l).total = ed.total + (l.map Event.duration).sum ∧
    (putList ed l).max = (l.map Event.duration).foldl Max.max ed.max ∧
    (putList ed l).min = (l.map Event.duration).foldl Min.min ed.min ∧
    (putList ed l).data = ed.data ++ (l.map Event.data).flatten ∧
    (putList ed l).stateChanges = ed.stateChanges ++ (l.map Event.stateChanges).flatten ∧
    (putList ed l).name = ed.name ∧
    (putList ed l).rank = ed.rank := by
  induction l generalizing ed with
  | nil => simp [putList]
  | cons e t ih =>
    have hsentMin_lt : sentinelMin < 0 := by simp only [sentinelMin]; omega
    have hdur : 0 ≤ e.duration := hd e (List.mem_cons_self e t)
    have hsumt : 0 ≤ (t.map Event.duration).sum :=
      sum_duration_nonneg (fun x hx => hd x (List.mem_cons_of_mem e hx))
    have hsum_cons : ((e :: t).map Event.duration).sum
        = e.duration + (t.map Event.duration).sum := by simp
    have hcount_step : (ed.put e).count = ed.count + 1 := by
      have : wrap64 (ed.count + 1) = ed.count + 1 := by
        refine wrap64_eq_self (by omega) ?_
        have : (0 : Int) ≤ (t.length : Int) := by positivity
        simp only [List.length_cons] at hcl
        push_cast at hcl
        omega
      simpa [EventData.put]
    have htotal_step : (ed.put e).total = ed.total + e.duration := by
      have : wrap64 (ed.total + e.duration) = ed.total + e.duration := by
        refine wrap64_eq_self (by omega) ?_
        rw [hsum_cons] at hts
        omega
      simpa [EventData.put]
    have hc0' : 0 ≤ (ed.put e).count := by omega
    have hcl' : (ed.put e).count + (t.length : Int) ≤ sentinelMax := by
      rw [hcount_step]
      simp only [List.length_cons] at hcl
      push_cast at hcl
      omega
    have ht0' : 0 ≤ (ed.put e).total := by omega
    have hts' : (ed.put e).total + (t.map Event.duration).sum ≤ sentinelMax := by
      rw [htotal_step]
      rw [hsum_cons] at hts
      omega
    have hd' : ∀ x ∈ t, 0 ≤ x.duration := fun x hx => hd x (List.mem_cons_of_mem e hx)
    obtain ⟨ihc, iht, ihmax, ihmin, ihdata, ihsc, ihname, ihrank⟩ :=
      ih (ed.put e) hc0' hcl' ht0' hts' hd'
    have hput : putList ed (e :: t) = putList (ed.put e) t := rfl
    refine ⟨?_, ?_, ?_, ?_, ?_, ?_, ?_, ?_⟩
    · rw [hput, ihc, hcount_step]
      simp only [List.length_cons]
      push_cast
      ring
    · rw [hput, iht, htotal_step, hsum_cons]
      ring
    · rw [hput, ihmax]
      have : (ed.put e).max = Max.max ed.max e.duration := by
        simp [EventData.put, max_comm]
      rw [this]
      simp
    · rw [hput, ihmin]
      have : (ed.put e).min = Min.min ed.min e.duration := by
        simp [EventData.put, min_comm]
      rw [this]
      simp
    · rw [hput, ihdata]
      simp [EventData.put]
    · rw [hput, ihsc]
      simp [EventData.put]
    · rw [hput, ihname]
      simp [EventData.put]
    · rw [hput, ihrank]
      simp [EventData.put]

theorem make_fields (n : String) :
    (EventData.make n).count = 0 ∧ (EventData.make n).total = 0 ∧
    (EventData.make n).max = sentinelMin ∧ (EventData.make n).min = sentinelMax ∧
    (EventData.make n).data = [] ∧ (EventData.make n).stateChanges = [] ∧
    (EventData.make n).name = n ∧ (EventData.make n).rank = none :=
  ⟨rfl, rfl, rfl, rfl, rfl, rfl, rfl, rfl⟩

theorem sentinelMin_neg : sentinelMin < 0 := by simp only [sentinelMin]; omega

/-! ### Claim C2: correctness of merging via put -/

/-- C2: merging a sequence of occurrences into one fresh `EventData` via
`put` gives `count` = number of merges, `total` = sum of the merged
durations, `max` / `min` = true extremal merged durations (for a nonempty
sequence), and `data` / `stateChanges` are the concatenations, in merge
order, of the occurrences' samples and state changes.  `put` is a total
function of the aggregate alone (never fails) and touches nothing else: the
`name` and `rank` members are unchanged.  The hypotheses say the durations
are the nonnegative int64 values that `Event::getDuration` produces and
that the accumulators do not overflow `long`. -/
theorem put_merge_spec (n : String) (l : List Event)
    (hd : ∀ e ∈ l, 0 ≤ e.duration)
    (hsum : (l.map Event.duration).sum ≤ sentinelMax)
    (hlen : (l.length : Int) ≤ sentinelMax) :
    (putList (EventData.make n) l).count = (l.length : Int) ∧
    (putList (EventData.make n) l).total = (l.map Event.duration).sum ∧
    (l ≠ [] → (putList (EventData.make n) l).max ∈ l.map Event.duration ∧
      ∀ e ∈ l, e.duration ≤ (putList (EventData.make n) l).max) ∧
    (l ≠ [] → (putList (EventData.make n) l).min ∈ l.map Event.duration ∧
      ∀ e ∈ l, (putList (EventData.make n) l).min ≤ e.duration) ∧
    (putList (EventData.make n) l).data = (l.map Event.data).flatten ∧
    (putList (EventData.make n) l).stateChanges = (l.map Event.stateChanges).flatten ∧
    (putList (EventData.make n) l).name = n ∧
    (putList (EventData.make n) l).rank = none := by
  obtain ⟨m0, m1, m2, m3, m4, m5, m6, m7⟩ := make_fields n
  obtain ⟨hc, ht, hmax, hmin, hdata, hsc, hname, hrank⟩ :=
    putList_spec l (EventData.make n) (by rw [m0]) (by rw [m0]; simpa using hlen)
      (by rw [m1]) (by rw [m1]; simpa using hsum) hd
  rw [m0] at hc
  rw [m1] at ht
  rw [m2] at hmax
  rw [m3] at hmin
  rw [m4] at hdata
  rw [m5] at hsc
  rw [m6] at hname
  rw [m7] at hrank
  refine ⟨by simpa using hc, by simpa using ht, ?_, ?_, by simpa using hdata,
    by simpa using hsc, hname, hrank⟩
  · intro hne
    constructor
    · rcases foldl_max_mem_or (l.map Event.duration) sentinelMin with heq | hmem
      · exfalso
        obtain ⟨e, he⟩ := List.exists_mem_of_ne_nil l hne
        have h1 : e.duration ≤ (l.map Event.duration).foldl Max.max sentinelMin :=
          le_foldl_max _ _ _ (List.mem_map_of_mem Event.duration he)
        rw [heq] at h1
        have := hd e he
        have := sentinelMin_neg
        omega
      · rw [hmax]; exact hmem
    · intro e he
      rw [hmax]
      exact le_foldl_max _ _ _ (List.mem_map_of_mem Event.duration he)
  · intro hne
    constructor
    · rcases foldl_min_mem_or (l.map Event.duration) sentinelMax with heq | hmem
      · obtain ⟨e, he⟩ := List.exists_mem_of_ne_nil l hne
        have h1 : (l.map Event.duration).foldl Min.min sentinelMax ≤ e.duration :=
          foldl_min_le _ _ _ (List.mem_map_of_mem Event.duration he)
        have h2 : e.duration ≤ (l.map Event.duration).sum :=
          List.single_le_sum (by
            intro x hx
            obtain ⟨y, hy, rfl⟩ := List.mem_map.mp hx
            exact hd y hy) _ (List.mem_map_of_mem Event.duration he)
        have h3 : e.duration = sentinelMax := by rw [heq] at h1; omega
        rw [hmin, heq, ← h3]
        exact List.mem_map_of_mem Event.duration he
      · rw [hmin]; exact hmem
    · intro e he
      rw [hmin]
      exact foldl_min_le _ _ _ (List.mem_map_of_mem Event.duration he)

/-- Two concrete occurrences used by the witnesses. -/
def evW1 : Event :=
  { name := "a", duration := 10 * nsPerMs, data := [1, 2], stateChanges := [("s", 5)] }

/-- Second concrete occurrence used by the witnesses. -/
def evW2 : Event :=
  { name := "a", duration := 30 * nsPerMs, data := [3], stateChanges := [] }

theorem put_merge_spec_witness :
    (putList (EventData.make "a") [evW1, evW2]).total =
      ([evW1, evW2].map Event.duration).sum :=
  (put_merge_spec "a" [evW1, evW2] (by decide) (by decide) (by decide)).2.1

/-! ### Claim C3: the min ≤ avg ≤ max invariant and the sentinels -/

/-- C3: before any merge `max` holds the duration type's sentinel minimum
and `min` the sentinel maximum, so the first merge always updates both
accumulators; and once `count ≥ 1` (a nonempty merge sequence) the invariant
`min ≤ total/count ≤ max` holds, with the C++ truncating integer division. -/
theorem min_avg_max_invariant (n : String) (l : List Event) (hne : l ≠ [])
    (hd : ∀ e ∈ l, 0 ≤ e.duration)
    (hsum : (l.map Event.duration).sum ≤ sentinelMax)
    (hlen : (l.length : Int) ≤ sentinelMax) :
    ((EventData.make n).max = sentinelMin ∧ (EventData.make n).min = sentinelMax) ∧
    (∀ e : Event, 0 ≤ e.duration → e.duration ≤ sentinelMax →
      ((EventData.make n).put e).max = e.duration ∧
      ((EventData.make n).put e).min = e.duration) ∧
    1 ≤ (putList (EventData.make n) l).count ∧
    (putList (EventData.make n) l).min ≤
      (putList (EventData.make n) l).total.tdiv (putList (EventData.make n) l).count ∧
    (putList (EventData.make n) l).total.tdiv (putList (EventData.make n) l).count ≤
      (putList (EventData.make n) l).max := by
  obtain ⟨m0, m1, m2, m3, m4, m5, m6, m7⟩ := make_fields n
  obtain ⟨hc, ht, hmax, hmin, hdata, hsc, hname, hrank⟩ :=
    putList_spec l (EventData.make n) (by rw [m0]) (by rw [m0]; simpa using hlen)
      (by rw [m1]) (by rw [m1]; simpa using hsum) hd
  rw [m0] at hc
  rw [m1] at ht
  rw [m2] at hmax
  rw [m3] at hmin
  simp only [zero_add] at hc ht
  have hlen_pos : 0 < (l.length : Int) := by
    have := List.length_pos.mpr hne
    omega
  have hS_nonneg : 0 ≤ (l.map Event.duration).sum := sum_duration_nonneg hd
  have htdiv : (putList (EventData.make n) l).total.tdiv
      (putList (EventData.make n) l).count
      = (l.map Event.duration).sum / (l.length : Int) := by
    rw [ht, hc]
    exact Int.tdiv_eq_ediv hS_nonneg (by omega)
  refine ⟨⟨m2, m3⟩, ?_, by omega, ?_, ?_⟩
  · intro e h0 h1
    constructor
    · show Max.max e.duration (EventData.make n).max = e.duration
      rw [m2]
      exact max_eq_left (by have := sentinelMin_neg; omega)
    · show Min.min e.duration (EventData.make n).min = e.duration
      rw [m3]
      exact min_eq_left h1
  · rw [htdiv, hmin]
    rw [Int.le_ediv_iff_mul_le hlen_pos]
    have hbound : ∀ x ∈ l.map Event.duration,
        (l.map Event.duration).foldl Min.min sentinelMax ≤ x :=
      foldl_min_le _ _
    have := mul_length_le_sum hbound
    simpa [List.length_map] using this
  · rw [htdiv, hmax]
    have hbound : ∀ x ∈ l.map Event.duration,
        x ≤ (l.map Event.duration).foldl Max.max sentinelMin :=
      le_foldl_max _ _
    have h1 : (l.map Event.duration).sum ≤
        ((l.map Event.duration).foldl Max.max sentinelMin) * (l.length : Int) := by
      have := sum_le_mul_length hbound
      simpa [List.length_map] using this
    calc (l.map Event.duration).sum / (l.length : Int)
        ≤ ((l.map Event.duration).foldl Max.max sentinelMin) * (l.length : Int) /
            (l.length : Int) := Int.ediv_le_ediv hlen_pos h1
      _ = (l.map Event.duration).foldl Max.max sentinelMin :=
          Int.mul_ediv_cancel _ (by omega)

theorem min_avg_max_invariant_witness :
    (putList (EventData.make "a") [evW1, evW2]).min ≤
      (putList (EventData.make "a") [evW1, evW2]).total.tdiv
        (putList (EventData.make "a") [evW1, evW2]).count :=
  (min_avg_max_invariant "a" [evW1, evW2] (by decide) (by decide) (by decide)
    (by decide)).2.2.2.1

/-! ### Claim C8: the average query -/

/-- C8: for `count ≥ 1` (a nonempty merge sequence) the average query is
defined and returns total / count at millisecond resolution
(`duration_cast<milliseconds>(total) / count` with truncating division); the
`count == 0` query on a freshly constructed aggregate is the undefined,
precondition-violating case and yields no value. -/
theorem getAvg_spec (n : String) (l : List Event) (hne : l ≠ [])
    (hd : ∀ e ∈ l, 0 ≤ e.duration)
    (hsum : (l.map Event.duration).sum ≤ sentinelMax)
    (hlen : (l.length : Int) ≤ sentinelMax) :
    (putList (EventData.make n) l).getAvg =
      some ((toMs ((l.map Event.duration).sum)).tdiv (l.length : Int)) ∧
    (EventData.make n).getAvg = none := by
  obtain ⟨m0, m1, m2, m3, m4, m5, m6, m7⟩ := make_fields n
  obtain ⟨hc, ht, hmax, hmin, hdata, hsc, hname, hrank⟩ :=
    putList_spec l (EventData.make n) (by rw [m0]) (by rw [m0]; simpa using hlen)
      (by rw [m1]) (by rw [m1]; simpa using hsum) hd
  rw [m0] at hc
  rw [m1] at ht
  simp only [zero_add] at hc ht
  have hlen_pos : 0 < (l.length : Int) := by
    have := List.length_pos.mpr hne
    omega
  constructor
  · rw [EventData.getAvg, if_neg (by omega), ht, hc]
  · rw [EventData.getAvg, if_pos m0]

theorem getAvg_spec_witness :
    (putList (EventData.make "a") [evW1, evW2]).getAvg =
      some ((toMs (([evW1, evW2].map Event.duration)).sum).tdiv
        (([evW1, evW2].length : Nat) : Int)) :=
  (getAvg_spec "a" [evW1, evW2] (by decide) (by decide) (by decide) (by decide)).1

/-! ### Normalisation: helper characterisations of normalizeTo -/

theorem normalizeTo_some_shape {rd : RankData} {t0 : Int} {rd' : RankData}
    (h : rd.normalizeTo t0 = some rd') :
    t0 ≤ rd.initializedAt ∧
    rd'.evData = rd.evData.map (fun p =>
      (p.1, shiftED rd.initializedAtTicks (rd.initializedAt - t0) p.2)) ∧
    (∀ p ∈ rd.evData, ∀ sc ∈ p.2.stateChanges,
      0 < sc.2 - rd.initializedAtTicks + (rd.initializedAt - t0)) := by
  unfold RankData.normalizeTo at h
  split_ifs at h with h1 h2
  refine ⟨h1, ?_, ?_⟩
  · have := (Option.some_inj.mp h).symm
    rw [this]
  · intro p hp sc hsc
    have h3 := (List.all_eq_true.mp h2) p hp
    have h4 := (List.all_eq_true.mp h3) sc hsc
    have h5 := decide_eq_true_iff.mp h4
    simpa [shiftSC] using h5

theorem normalizeTo_none_iff (rd : RankData) (t0 : Int) :
    rd.normalizeTo t0 = none ↔ rd.initializedAt < t0 ∨
      ∃ p ∈ rd.evData, ∃ sc ∈ p.2.stateChanges,
        sc.2 - rd.initializedAtTicks + (rd.initializedAt - t0) ≤ 0 := by
  unfold RankData.normalizeTo
  split_ifs with h1 h2
  · simp only [reduceCtorEq, false_iff]
    push_neg
    refine ⟨by omega, ?_⟩
    intro p hp sc hsc
    have h3 := (List.all_eq_true.mp h2) p hp
    have h4 := (List.all_eq_true.mp h3) sc hsc
    have h5 := decide_eq_true_iff.mp h4
    simp only [shiftSC] at h5
    omega
  · simp only [true_iff]
    right
    simp only [List.all_eq_true, not_forall] at h2
    obtain ⟨p, hp, sc, hsc, h4⟩ := h2
    refine ⟨p, hp, sc, hsc, ?_⟩
    rw [decide_eq_true_iff] at h4
    push_neg at h4
    simpa [shiftSC] using h4
  · simp only [true_iff]
    left
    omega

/-- `min`-fold of the `MPI_MIN` reduction is a lower bound of every
participant's value. -/
theorem reduceMinInit_le (ranks : List RankData) (rd : RankData) (hmem : rd ∈ ranks) :
    reduceMinInit ranks ≤ rd.initializedAt := by
  cases ranks with
  | nil => cases hmem
  | cons r t =>
    have hfold : reduceMinInit (r :: t)
        = (t.map RankData.initializedAt).foldl Min.min r.initializedAt := by
      rw [reduceMinInit, List.foldl_map]
    rcases List.mem_cons.mp hmem with rfl | h
    · rw [hfold]
      exact foldl_min_le_self _ _
    · rw [hfold]
      exact foldl_min_le _ _ _ (List.mem_map_of_mem RankData.initializedAt h)

/-! ### Claim C4: normalizeTo shifts timestamps; the reduced origin is safe -/

/-- C4: whenever `normalizeTo(origin)` completes, the precondition
`origin ≤ initializedAt` held and every state-change timestamp `t` has been
replaced by `t - initializedAtTicks + delta` with
`delta = initializedAt - origin` (event names and everything else intact);
and the origin computed by the `MPI_MIN` reduction in
`EventRegistry::normalize` is ≤ every rank's `initializedAt`, so `delta` is
never negative for any rank. -/
theorem normalizeTo_shifts :
    (∀ (rd : RankData) (t0 : Int) (rd' : RankData), rd.normalizeTo t0 = some rd' →
      t0 ≤ rd.initializedAt ∧
      List.Forall₂ (fun (p q : String × EventData) => p.1 = q.1 ∧
        p.2.stateChanges = q.2.stateChanges.map (fun sc =>
          (sc.1, sc.2 - rd.initializedAtTicks + (rd.initializedAt - t0))))
        rd'.evData rd.evData) ∧
    (∀ (ranks : List RankData) (rd : RankData), rd ∈ ranks →
      reduceMinInit ranks ≤ rd.initializedAt ∧
      0 ≤ rd.initializedAt - reduceMinInit ranks) := by
  constructor
  · intro rd t0 rd' h
    obtain ⟨h1, h2, h3⟩ := normalizeTo_some_shape h
    refine ⟨h1, ?_⟩
    rw [h2, List.forall₂_map_left_iff]
    rw [List.forall₂_same]
    intro p hp
    exact ⟨rfl, rfl⟩
  · intro ranks rd hmem
    have := reduceMinInit_le ranks rd hmem
    exact ⟨this, by omega⟩

/-- Concrete one-rank scenario used by the normalisation witnesses: started
at wall-clock tick 5, monotonic origin 0, one event with one state change at
monotonic tick 3. -/
def rdW : RankData :=
  { evData := [("e", { name := "e", stateChanges := [("s", 3)] })],
    initializedAt := 5 }

theorem normalizeTo_shifts_witness :
    List.Forall₂ (fun (p q : String × EventData) => p.1 = q.1 ∧
      p.2.stateChanges = q.2.stateChanges.map (fun sc =>
        (sc.1, sc.2 - rdW.initializedAtTicks + (rdW.initializedAt - reduceMinInit [rdW]))))
      rdW.evData rdW.evData ∧
    reduceMinInit [rdW] ≤ rdW.initializedAt :=
  ⟨(normalizeTo_shifts.1 rdW (reduceMinInit [rdW]) rdW (by decide)).2,
   (normalizeTo_shifts.2 [rdW] rdW (by decide)).1⟩

/-! ### Claim C5: detection of double normalisation -/

/-- C5 counterexample: a double normalisation that the code does not flag.
Both calls use origin 0; the first shifts the state-change timestamp from 3
to 8, the second from 8 to 13 — all resulting offsets stay strictly
positive, so no assert fires and `normalizeTo` succeeds twice, refuting the
claim that a second normalisation always yields a non-positive offset. -/
theorem normalize_twice_undetected :
    (rdW.normalizeTo 0).bind (fun r => r.normalizeTo 0) =
      some { evData := [("e", { name := "e", stateChanges := [("s", 13)] })],
             initializedAt := 5 } := by decide

/-- C5 (amended): a non-positive offset produced by the shift is treated as
a fatal internal-consistency error (a failed assert aborts, nothing is
clamped), and `normalizeTo` fails in exactly two situations: the
precondition `t0 ≤ initializedAt` is violated, or some shifted timestamp is
non-positive.  On success every stored timestamp is strictly positive.
Double normalisation is therefore detected precisely when it drives some
offset non-positive — which the counterexample shows is not every input. -/
theorem normalizeTo_error_detection (rd : RankData) (t0 : Int) :
    (rd.normalizeTo t0 = none ↔ rd.initializedAt < t0 ∨
      ∃ p ∈ rd.evData, ∃ sc ∈ p.2.stateChanges,
        sc.2 - rd.initializedAtTicks + (rd.initializedAt - t0) ≤ 0) ∧
    (∀ rd', rd.normalizeTo t0 = some rd' →
      (∀ p ∈ rd'.evData, ∀ sc ∈ p.2.stateChanges, 0 < sc.2) ∧
      rd'.evData = rd.evData.map (fun p =>
        (p.1, shiftED rd.initializedAtTicks (rd.initializedAt - t0) p.2))) := by
  constructor
  · exact normalizeTo_none_iff rd t0
  · intro rd' h
    obtain ⟨h1, h2, h3⟩ := normalizeTo_some_shape h
    refine ⟨?_, h2⟩
    intro p hp sc hsc
    rw [h2] at hp
    obtain ⟨q, hq, rfl⟩ := List.mem_map.mp hp
    simp only [shiftED, List.mem_map] at hsc
    obtain ⟨sc0, hsc0, rfl⟩ := hsc
    have := h3 q hq sc0 hsc0
    simpa [shiftSC] using this

/-- The result of the first normalisation of `rdW` with origin 0. -/
def rdW1 : RankData :=
  { evData := [("e", { name := "e", stateChanges := [("s", 8)] })],
    initializedAt := 5 }

theorem normalizeTo_error_detection_witness :
    ∀ p ∈ rdW1.evData, ∀ sc ∈ p.2.stateChanges, 0 < sc.2 :=
  ((normalizeTo_error_detection rdW 0).2 rdW1 (by decide)).1

/-! ### Claim C9: RankData::put never stamps the owning rank -/

/-- C9, evaluated at the failing input (a fresh snapshot receiving one
occurrence): `RankData::put` creates the `EventData` keyed by the event's
name with the name-only constructor and merges the occurrence into it — but
the owning rank id is never stamped: `EventData::rank` stays indeterminate.
(The header declares an `EventData` constructor taking an `int _rank`; the
implementation file defines no such constructor and contains no assignment
to the `rank` member at all.) -/
theorem put_leaves_rank_unset :
    (({} : RankData).put evW1).evData =
      [("a", EventData.put (EventData.make "a") evW1)] ∧
    (EventData.put (EventData.make "a") evW1).rank = none ∧
    (EventData.put (EventData.make "a") evW1).count = 1 := by decide

/-! ### Claim C7: the min/max ratio guard -/

/-- C7: every row of the global-statistics report whose max is zero has its
min/max ratio reported as 0 — the division is skipped ("no data"), the row
is still produced (recovered locally, not fatal); every other row's ratio is
the actual quotient. -/
theorem ratio_guard (events : List RankData) (row : StatsRow)
    (hrow : row ∈ printGlobalStatsRows events) :
    (row.max = 0 → row.rel = 0) ∧
    (row.max ≠ 0 → row.rel = (row.min : ℚ) / (row.max : ℚ)) := by
  simp only [printGlobalStatsRows, List.mem_map] at hrow
  obtain ⟨e, he, rfl⟩ := hrow
  constructor
  · intro h
    simp only at h
    simp [relOf, h]
  · intro h
    simp only at h
    simp [relOf, h]

/-- An aggregate with a zero max, for the ratio-guard witness. -/
def edZ : EventData := { name := "z", max := 0, min := 7 }

/-- A one-rank global snapshot holding only `edZ`. -/
def rkZ : RankData := { evData := [("z", edZ)] }

/-- The row the report produces for `edZ`: max is 0, so the ratio is 0 even
though min is 7. -/
def rowZ : StatsRow :=
  { name := "z", max := 0, maxRank := some 0, min := 7, minRank := some 0, rel := 0 }

theorem ratio_guard_witness : rowZ.rel = 0 :=
  (ratio_guard [rkZ] rowZ (by decide)).1 (by decide)

/-! ### Global statistics: bookkeeping for the double fold -/

/-- The (rank, aggregate) occurrences of one name inside one rank's map, in
iteration order. -/
def entriesOfList (n : String) (rank : Nat) (l : List (String × EventData)) :
    List (Nat × EventData) :=
  (l.filter (fun p => p.1 == n)).map (fun p => (rank, p.2))

/-- All (rank, aggregate) occurrences of one name across the global data,
in the iteration order of `getGlobalStats` (ranks ascending). -/
def entriesAux (n : String) (rank : Nat) : List RankData → List (Nat × EventData)
  | [] => []
  | rd :: t => entriesOfList n rank rd.evData ++ entriesAux n (rank + 1) t

/-- The occurrences of one name across the whole global snapshot list. -/
def entriesFor (n : String) (events : List RankData) : List (Nat × EventData) :=
  entriesAux n 0 events

/-- Folding a sequence of per-event updates into one stats accumulator. -/
def statsRun (es : List (Nat × EventData)) (s : GlobalEventStats) :
    GlobalEventStats :=
  es.foldl (fun s re => mergeStats re.1 re.2 s) s

/-- What one name's stats entry looks like after folding more occurrences
into a map where the entry may or may not already exist (absent = `none`,
`operator[]` default-constructs on first touch). -/
def seedStats : Option GlobalEventStats → List (Nat × EventData) →
    Option GlobalEventStats
  | none, [] => none
  | none, es@(_ :: _) => some (statsRun es {})
  | some s, es => some (statsRun es s)

theorem mergeStats_max (rank : Nat) (ed : EventData) (s : GlobalEventStats) :
    (mergeStats rank ed s).max = Max.max s.max ed.max := by
  by_cases h1 : s.max < ed.max <;> by_cases h2 : ed.min < s.min <;>
    simp [mergeStats, h1, h2] <;> omega

theorem mergeStats_maxRank (rank : Nat) (ed : EventData) (s : GlobalEventStats) :
    (mergeStats rank ed s).maxRank =
      if s.max < ed.max then some rank else s.maxRank := by
  by_cases h1 : s.max < ed.max <;> by_cases h2 : ed.min < s.min <;>
    simp [mergeStats, h1, h2]

theorem mergeStats_min (rank : Nat) (ed : EventData) (s : GlobalEventStats) :
    (mergeStats rank ed s).min = Min.min s.min ed.min := by
  by_cases h1 : s.max < ed.max <;> by_cases h2 : ed.min < s.min <;>
    simp [mergeStats, h1, h2] <;> omega

theorem mergeStats_minRank (rank : Nat) (ed : EventData) (s : GlobalEventStats) :
    (mergeStats rank ed s).minRank =
      if ed.min < s.min then some rank else s.minRank := by
  by_cases h1 : s.max < ed.max <;> by_cases h2 : ed.min < s.min <;>
    simp [mergeStats, h1, h2]

theorem lookup_eq_none_of_forall {β : Type} (gs : List (String × β)) (k : String)
    (h : ∀ q ∈ gs, k ≠ q.1) : gs.lookup k = none := by
  induction gs with
  | nil => rfl
  | cons q t ih =>
    have hk : k ≠ q.1 := h q (List.mem_cons_self q t)
    obtain ⟨q1, q2⟩ := q
    simp only [List.lookup_cons]
    rw [beq_eq_false_iff_ne.mpr hk]
    exact ih (fun x hx => h x (List.mem_cons_of_mem _ hx))

/-- Every entry of `statsUpd k f gs` is an entry of `gs` or has key `k`. -/
theorem statsUpd_mem_keys (k : String) (f : GlobalEventStats → GlobalEventStats)
    (gs : List (String × GlobalEventStats)) (b : String × GlobalEventStats)
    (hb : b ∈ statsUpd k f gs) : b ∈ gs ∨ b.1 = k := by
  induction gs with
  | nil =>
    simp only [statsUpd, List.mem_singleton] at hb
    right
    rw [hb]
  | cons q t ih =>
    obtain ⟨q1, q2⟩ := q
    unfold statsUpd at hb
    split_ifs at hb with h1 h2
    · rcases List.mem_cons.mp hb with rfl | hbt
      · right; exact h1.symm
      · left; exact List.mem_cons_of_mem _ hbt
    · rcases List.mem_cons.mp hb with rfl | hbt
      · right; rfl
      · left; exact hbt
    · rcases List.mem_cons.mp hb with rfl | hbt
      · left; exact List.mem_cons_self _ _
      · rcases ih hbt with h | h
        · left; exact List.mem_cons_of_mem _ h
        · right; exact h

theorem statsUpd_sorted (k : String) (f : GlobalEventStats → GlobalEventStats)
    (gs : List (String × GlobalEventStats)) (hs : SortedKeys gs) :
    SortedKeys (statsUpd k f gs) := by
  induction gs with
  | nil => simp [statsUpd, SortedKeys]
  | cons q t ih =>
    obtain ⟨q1, q2⟩ := q
    rw [SortedKeys, List.pairwise_cons] at hs
    obtain ⟨hhead, htail⟩ := hs
    unfold statsUpd
    split_ifs with h1 h2
    · subst h1
      rw [SortedKeys, List.pairwise_cons]
      exact ⟨hhead, htail⟩
    · rw [SortedKeys, List.pairwise_cons]
      constructor
      · intro b hb
        rcases List.mem_cons.mp hb with rfl | hbt
        · exact h2
        · exact lt_trans h2 (hhead b hbt)
      · rw [SortedKeys, List.pairwise_cons] at *
        exact ⟨hhead, htail⟩
    · rw [SortedKeys, List.pairwise_cons]
      constructor
      · intro b hb
        have hmem := statsUpd_mem_keys k f t b hb
        rcases hmem with hbt | hbk
        · exact hhead b hbt
        · rw [hbk]
          rcases lt_trichotomy k q1 with h | h | h
          · exact absurd h h2
          · exact absurd h h1
          · exact h
      · exact ih htail

theorem seedStats_nil (o : Option GlobalEventStats) : seedStats o [] = o := by
  cases o <;> rfl

theorem seedStats_some (s : GlobalEventStats) (es : List (Nat × EventData)) :
    seedStats (some s) es = some (statsRun es s) := rfl

theorem seedStats_cons (o : Option GlobalEventStats) (e : Nat × EventData)
    (es : List (Nat × EventData)) :
    seedStats o (e :: es) = some (statsRun es (mergeStats e.1 e.2 (o.getD {}))) := by
  cases o <;> rfl

theorem seedStats_append (o : Option GlobalEventStats)
    (es1 es2 : List (Nat × EventData)) :
    seedStats (seedStats o es1) es2 = seedStats o (es1 ++ es2) := by
  cases o with
  | none =>
    cases es1 with
    | nil => rfl
    | cons e t =>
      rw [seedStats, seedStats_some, List.cons_append, seedStats]
      simp [statsRun, List.foldl_append]
  | some s =>
    rw [seedStats_some, seedStats_some, seedStats_some]
    simp [statsRun, List.foldl_append]

theorem statsUpd_lookup_self (k : String) (f : GlobalEventStats → GlobalEventStats)
    (gs : List (String × GlobalEventStats)) (hs : SortedKeys gs) :
    (statsUpd k f gs).lookup k = some (f ((gs.lookup k).getD {})) := by
  induction gs with
  | nil => simp [statsUpd, List.lookup]
  | cons q t ih =>
    obtain ⟨q1, q2⟩ := q
    rw [SortedKeys, List.pairwise_cons] at hs
    obtain ⟨hhead, htail⟩ := hs
    unfold statsUpd
    split_ifs with h1 h2
    · subst h1
      simp [List.lookup]
    · have hnone : ((q1, q2) :: t).lookup k = none := by
        apply lookup_eq_none_of_forall
        intro x hx
        rcases List.mem_cons.mp hx with rfl | hxt
        · exact h1
        · exact ne_of_lt (lt_trans h2 (hhead x hxt))
      rw [hnone]
      simp [List.lookup]
    · have hk_ne : (k == q1) = false := beq_eq_false_iff_ne.mpr h1
      simp only [List.lookup, hk_ne]
      exact ih htail

theorem statsUpd_lookup_other (k : String) (f : GlobalEventStats → GlobalEventStats)
    (gs : List (String × GlobalEventStats)) (n : String) (hne : n ≠ k) :
    (statsUpd k f gs).lookup n = gs.lookup n := by
  induction gs with
  | nil => simp [statsUpd, List.lookup, beq_eq_false_iff_ne.mpr hne]
  | cons q t ih =>
    obtain ⟨q1, q2⟩ := q
    unfold statsUpd
    split_ifs with h1 h2
    · subst h1
      by_cases hq : n = k
      · exact absurd hq hne
      · simp [List.lookup, beq_eq_false_iff_ne.mpr hq]
    · simp [List.lookup, beq_eq_false_iff_ne.mpr hne]
    · by_cases hq : n = q1
      · subst hq
        simp [List.lookup]
      · simp only [List.lookup, beq_eq_false_iff_ne.mpr hq]
        exact ih

theorem foldUpd_sorted (rank : Nat) (l : List (String × EventData))
    (gs : List (String × GlobalEventStats)) (hs : SortedKeys gs) :
    SortedKeys (l.foldl (fun gs p => statsUpd p.1 (mergeStats rank p.2) gs) gs) := by
  induction l generalizing gs with
  | nil => exact hs
  | cons p t ih => exact ih _ (statsUpd_sorted _ _ _ hs)

theorem lookup_foldUpd (n : String) (rank : Nat) (l : List (String × EventData))
    (gs : List (String × GlobalEventStats)) (hs : SortedKeys gs) :
    (l.foldl (fun gs p => statsUpd p.1 (mergeStats rank p.2) gs) gs).lookup n =
      seedStats (gs.lookup n) (entriesOfList n rank l) := by
  induction l generalizing gs with
  | nil =>
    rw [List.foldl_nil]
    have : entriesOfList n rank [] = [] := rfl
    rw [this, seedStats_nil]
  | cons p t ih =>
    have hs' := statsUpd_sorted p.1 (mergeStats rank p.2) gs hs
    rw [List.foldl_cons, ih _ hs']
    by_cases hp : p.1 = n
    · subst hp
      rw [statsUpd_lookup_self p.1 (mergeStats rank p.2) gs hs]
      have hcons : entriesOfList p.1 rank (p :: t) =
          (rank, p.2) :: entriesOfList p.1 rank t := by
        simp [entriesOfList, List.filter_cons]
      rw [hcons, seedStats_cons, seedStats_some]
    · have hother := statsUpd_lookup_other p.1 (mergeStats rank p.2) gs n
        (fun h => hp h.symm)
      rw [hother]
      have hcons : entriesOfList n rank (p :: t) = entriesOfList n rank t := by
        simp [entriesOfList, List.filter_cons, beq_eq_false_iff_ne.mpr hp]
      rw [hcons]

theorem lookup_getGlobalStatsAux (n : String) (events : List RankData)
    (rank : Nat) (gs : List (String × GlobalEventStats)) (hs : SortedKeys gs) :
    (getGlobalStatsAux rank events gs).lookup n =
      seedStats (gs.lookup n) (entriesAux n rank events) := by
  induction events generalizing rank gs with
  | nil =>
    rw [getGlobalStatsAux]
    have : entriesAux n rank [] = [] := rfl
    rw [this, seedStats_nil]
  | cons rd t ih =>
    rw [getGlobalStatsAux]
    have hs' : SortedKeys (statsOfRank rank rd gs) := foldUpd_sorted rank rd.evData gs hs
    rw [ih (rank + 1) (statsOfRank rank rd gs) hs']
    have h1 : (statsOfRank rank rd gs).lookup n =
        seedStats (gs.lookup n) (entriesOfList n rank rd.evData) :=
      lookup_foldUpd n rank rd.evData gs hs
    rw [h1, seedStats_append]
    rfl

theorem lookup_getGlobalStats (n : String) (events : List RankData) :
    (getGlobalStats events).lookup n = seedStats none (entriesFor n events) := by
  have h := lookup_getGlobalStatsAux n events 0 []
    (by rw [SortedKeys]; exact List.Pairwise.nil)
  rw [getGlobalStats]
  rw [h]
  rfl

theorem statsRun_cons (e : Nat × EventData) (es : List (Nat × EventData))
    (s : GlobalEventStats) :
    statsRun (e :: es) s = statsRun es (mergeStats e.1 e.2 s) := rfl

theorem statsRun_max_char (es : List (Nat × EventData)) (s : GlobalEventStats) :
    ((statsRun es s).max = s.max ∧ (statsRun es s).maxRank = s.maxRank ∧
      ∀ x ∈ es, x.2.max ≤ s.max) ∨
    (∃ l1 e l2, es = l1 ++ e :: l2 ∧
      (statsRun es s).max = e.2.max ∧ (statsRun es s).maxRank = some e.1 ∧
      s.max < e.2.max ∧ (∀ x ∈ l1, x.2.max < e.2.max) ∧
      (∀ x ∈ l2, x.2.max ≤ e.2.max)) := by
  induction es generalizing s with
  | nil =>
    left
    exact ⟨rfl, rfl, by simp⟩
  | cons e t ih =>
    rw [statsRun_cons]
    by_cases h1 : s.max < e.2.max
    · have hmax' : (mergeStats e.1 e.2 s).max = e.2.max := by
        rw [mergeStats_max]
        exact max_eq_right (le_of_lt h1)
      have hrank' : (mergeStats e.1 e.2 s).maxRank = some e.1 := by
        rw [mergeStats_maxRank, if_pos h1]
      rcases ih (mergeStats e.1 e.2 s) with ⟨ha, hb, hc⟩ |
        ⟨l1, e', l2, hsplit, ha, hb, hlt, hl1, hl2⟩
      · right
        refine ⟨[], e, t, by simp, by rw [ha, hmax'], by rw [hb, hrank'], h1,
          by simp, ?_⟩
        intro x hx
        have hx2 := hc x hx
        rw [hmax'] at hx2
        exact hx2
      · right
        rw [hmax'] at hlt
        refine ⟨e :: l1, e', l2, by rw [hsplit]; rfl, ha, hb,
          lt_trans h1 hlt, ?_, hl2⟩
        intro x hx
        rcases List.mem_cons.mp hx with rfl | hxt
        · exact hlt
        · exact hl1 x hxt
    · have h1' : e.2.max ≤ s.max := le_of_not_lt h1
      have hmax' : (mergeStats e.1 e.2 s).max = s.max := by
        rw [mergeStats_max]
        exact max_eq_left h1'
      have hrank' : (mergeStats e.1 e.2 s).maxRank = s.maxRank := by
        rw [mergeStats_maxRank, if_neg h1]
      rcases ih (mergeStats e.1 e.2 s) with ⟨ha, hb, hc⟩ |
        ⟨l1, e', l2, hsplit, ha, hb, hlt, hl1, hl2⟩
      · left
        refine ⟨by rw [ha, hmax'], by rw [hb, hrank'], ?_⟩
        intro x hx
        rcases List.mem_cons.mp hx with rfl | hxt
        · exact h1'
        · have hx2 := hc x hxt
          rw [hmax'] at hx2
          exact hx2
      · right
        rw [hmax'] at hlt
        refine ⟨e :: l1, e', l2, by rw [hsplit]; rfl, ha, hb, hlt, ?_, hl2⟩
        intro x hx
        rcases List.mem_cons.mp hx with rfl | hxt
        · exact lt_of_le_of_lt h1' hlt
        · exact hl1 x hxt

theorem statsRun_min_char (es : List (Nat × EventData)) (s : GlobalEventStats) :
    ((statsRun es s).min = s.min ∧ (statsRun es s).minRank = s.minRank ∧
      ∀ x ∈ es, s.min ≤ x.2.min) ∨
    (∃ l1 e l2, es = l1 ++ e :: l2 ∧
      (statsRun es s).min = e.2.min ∧ (statsRun es s).minRank = some e.1 ∧
      e.2.min < s.min ∧ (∀ x ∈ l1, e.2.min < x.2.min) ∧
      (∀ x ∈ l2, e.2.min ≤ x.2.min)) := by
  induction es generalizing s with
  | nil =>
    left
    exact ⟨rfl, rfl, by simp⟩
  | cons e t ih =>
    rw [statsRun_cons]
    by_cases h1 : e.2.min < s.min
    · have hmin' : (mergeStats e.1 e.2 s).min = e.2.min := by
        rw [mergeStats_min]
        exact min_eq_right (le_of_lt h1)
      have hrank' : (mergeStats e.1 e.2 s).minRank = some e.1 := by
        rw [mergeStats_minRank, if_pos h1]
      rcases ih (mergeStats e.1 e.2 s) with ⟨ha, hb, hc⟩ |
        ⟨l1, e', l2, hsplit, ha, hb, hlt, hl1, hl2⟩
      · right
        refine ⟨[], e, t, by simp, by rw [ha, hmin'], by rw [hb, hrank'], h1,
          by simp, ?_⟩
        intro x hx
        have hx2 := hc x hx
        rw [hmin'] at hx2
        exact hx2
      · right
        rw [hmin'] at hlt
        refine ⟨e :: l1, e', l2, by rw [hsplit]; rfl, ha, hb,
          lt_trans hlt h1, ?_, hl2⟩
        intro x hx
        rcases List.mem_cons.mp hx with rfl | hxt
        · exact hlt
        · exact hl1 x hxt
    · have h1' : s.min ≤ e.2.min := le_of_not_lt h1
      have hmin' : (mergeStats e.1 e.2 s).min = s.min := by
        rw [mergeStats_min]
        exact min_eq_left h1'
      have hrank' : (mergeStats e.1 e.2 s).minRank = s.minRank := by
        rw [mergeStats_minRank, if_neg h1]
      rcases ih (mergeStats e.1 e.2 s) with ⟨ha, hb, hc⟩ |
        ⟨l1, e', l2, hsplit, ha, hb, hlt, hl1, hl2⟩
      · left
        refine ⟨by rw [ha, hmin'], by rw [hb, hrank'], ?_⟩
        intro x hx
        rcases List.mem_cons.mp hx with rfl | hxt
        · exact h1'
        · have hx2 := hc x hxt
          rw [hmin'] at hx2
          exact hx2
      · right
        rw [hmin'] at hlt
        refine ⟨e :: l1, e', l2, by rw [hsplit]; rfl, ha, hb, hlt, ?_, hl2⟩
        intro x hx
        rcases List.mem_cons.mp hx with rfl | hxt
        · exact lt_of_lt_of_le hlt h1'
        · exact hl1 x hxt

theorem entriesOfList_rank (n : String) (rank : Nat)
    (l : List (String × EventData)) :
    ∀ x ∈ entriesOfList n rank l, x.1 = rank := by
  intro x hx
  simp only [entriesOfList, List.mem_map] at hx
  obtain ⟨p, hp, rfl⟩ := hx
  rfl

theorem entriesAux_rank_lb (n : String) (rank : Nat) (events : List RankData) :
    ∀ x ∈ entriesAux n rank events, rank ≤ x.1 := by
  induction events generalizing rank with
  | nil => simp [entriesAux]
  | cons rd t ih =>
    intro x hx
    rw [entriesAux] at hx
    rcases List.mem_append.mp hx with h | h
    · rw [entriesOfList_rank n rank rd.evData x h]
    · exact le_trans (Nat.le_succ rank) (ih (rank + 1) x h)

theorem pairwise_of_len_le_one {α : Type} {R : α → α → Prop} {l : List α}
    (h : l.length ≤ 1) : l.Pairwise R := by
  cases l with
  | nil => exact List.Pairwise.nil
  | cons a t =>
    cases t with
    | nil => simp
    | cons b u => simp at h

theorem filter_key_len_le_one (l : List (String × EventData)) (n : String)
    (hnd : (l.map Prod.fst).Nodup) :
    (l.filter (fun p => p.1 == n)).length ≤ 1 := by
  induction l with
  | nil => simp
  | cons p t ih =>
    rw [List.map_cons, List.nodup_cons] at hnd
    obtain ⟨hp, ht⟩ := hnd
    rw [List.filter_cons]
    by_cases hk : (p.1 == n) = true
    · rw [if_pos hk]
      have hnil : t.filter (fun p => p.1 == n) = [] := by
        rw [List.filter_eq_nil_iff]
        intro q hq hbeq
        have h1 : p.1 = n := beq_iff_eq.mp hk
        have h2 : q.1 = n := beq_iff_eq.mp hbeq
        exact hp (by
          rw [h1, ← h2]
          exact List.mem_map_of_mem Prod.fst hq)
      simp [hnil]
    · rw [if_neg hk]
      exact ih ht

theorem entriesAux_ranks_sorted (n : String) (rank : Nat)
    (events : List RankData) (h : ∀ rd ∈ events, SortedKeys rd.evData) :
    (entriesAux n rank events).Pairwise (fun a b => a.1 < b.1) := by
  induction events generalizing rank with
  | nil => simp [entriesAux]
  | cons rd t ih =>
    rw [entriesAux, List.pairwise_append]
    refine ⟨?_, ih (rank + 1) (fun rd' h' => h rd' (List.mem_cons_of_mem _ h')), ?_⟩
    · have hsk := h rd (List.mem_cons_self rd t)
      rw [SortedKeys] at hsk
      have hnd : (rd.evData.map Prod.fst).Nodup := by
        rw [List.Nodup, List.pairwise_map]
        exact hsk.imp (fun h => ne_of_lt h)
      have hlen := filter_key_len_le_one rd.evData n hnd
      apply pairwise_of_len_le_one
      rw [entriesOfList, List.length_map]
      exact hlen
    · intro a ha b hb
      rw [entriesOfList_rank n rank rd.evData a ha]
      exact lt_of_lt_of_le (Nat.lt_succ_self rank) (entriesAux_rank_lb n (rank + 1) t b hb)

/-- A name present in the computed stats map got there by folding exactly
its occurrences, starting from a default-constructed entry. -/
theorem lookup_some_statsRun {events : List RankData} {n : String}
    {s : GlobalEventStats}
    (hlook : (getGlobalStats events).lookup n = some s) :
    s = statsRun (entriesFor n events) {} := by
  have hE := lookup_getGlobalStats n events
  rw [hlook] at hE
  cases hE2 : entriesFor n events with
  | nil =>
    rw [hE2, seedStats_nil] at hE
    exact absurd hE (by simp)
  | cons e t =>
    rw [hE2, seedStats_cons] at hE
    have hs := Option.some_inj.mp hE
    rw [statsRun_cons]
    exact hs

theorem defaultStats_fields :
    ({} : GlobalEventStats).max = sentinelMin ∧
    ({} : GlobalEventStats).min = sentinelMax ∧
    ({} : GlobalEventStats).maxRank = none ∧
    ({} : GlobalEventStats).minRank = none :=
  ⟨rfl, rfl, rfl, rfl⟩

/-! ### Claim C6: global statistics are the true extrema, ties to lowest rank -/

/-- C6: for an event name present in the collected global data (and carrying
at least one genuinely merged aggregate, i.e. one whose extremal
accumulators moved off the sentinels), `getGlobalStats` reports a max ≥
every rank's max for that name and a min ≤ every rank's min; the reported
`maxRank` / `minRank` are ranks whose aggregates actually attain the
reported extrema; and among all attaining ranks the lowest rank — the one
encountered first, since the fold walks ranks in ascending order — wins the
tie. -/
theorem getGlobalStats_extremal (events : List RankData) (n : String)
    (s : GlobalEventStats)
    (hsorted : ∀ rd ∈ events, SortedKeys rd.evData)
    (hlook : (getGlobalStats events).lookup n = some s)
    (hmaxne : ∃ x ∈ entriesFor n events, sentinelMin < x.2.max)
    (hminne : ∃ x ∈ entriesFor n events, x.2.min < sentinelMax) :
    (∀ x ∈ entriesFor n events, x.2.max ≤ s.max ∧ s.min ≤ x.2.min) ∧
    (∃ x ∈ entriesFor n events, s.maxRank = some x.1 ∧ x.2.max = s.max ∧
      ∀ y ∈ entriesFor n events, y.2.max = s.max → x.1 ≤ y.1) ∧
    (∃ x ∈ entriesFor n events, s.minRank = some x.1 ∧ x.2.min = s.min ∧
      ∀ y ∈ entriesFor n events, y.2.min = s.min → x.1 ≤ y.1) := by
  have hs_run := lookup_some_statsRun hlook
  have hranks : (entriesFor n events).Pairwise (fun a b => a.1 < b.1) :=
    entriesAux_ranks_sorted n 0 events hsorted
  obtain ⟨l1, e, l2, hsplit, hmaxv, hmaxr, hltm, hl1, hl2⟩ :
      ∃ l1 e l2, entriesFor n events = l1 ++ e :: l2 ∧
        (statsRun (entriesFor n events) {}).max = e.2.max ∧
        (statsRun (entriesFor n events) {}).maxRank = some e.1 ∧
        ({} : GlobalEventStats).max < e.2.max ∧
        (∀ x ∈ l1, x.2.max < e.2.max) ∧ (∀ x ∈ l2, x.2.max ≤ e.2.max) := by
    rcases statsRun_max_char (entriesFor n events) {} with ⟨ha, hb, hc⟩ | hr
    · exfalso
      obtain ⟨x, hx, hxlt⟩ := hmaxne
      have := hc x hx
      rw [defaultStats_fields.1] at this
      omega
    · exact hr
  obtain ⟨m1, d, m2, hsplit2, hminv, hminr, hltn, hm1, hm2⟩ :
      ∃ m1 d m2, entriesFor n events = m1 ++ d :: m2 ∧
        (statsRun (entriesFor n events) {}).min = d.2.min ∧
        (statsRun (entriesFor n events) {}).minRank = some d.1 ∧
        d.2.min < ({} : GlobalEventStats).min ∧
        (∀ x ∈ m1, d.2.min < x.2.min) ∧ (∀ x ∈ m2, d.2.min ≤ x.2.min) := by
    rcases statsRun_min_char (entriesFor n events) {} with ⟨ha, hb, hc⟩ | hr
    · exfalso
      obtain ⟨x, hx, hxlt⟩ := hminne
      have := hc x hx
      rw [defaultStats_fields.2.1] at this
      omega
    · exact hr
  have hsmax : s.max = e.2.max := by rw [hs_run]; exact hmaxv
  have hsmaxr : s.maxRank = some e.1 := by rw [hs_run]; exact hmaxr
  have hsmin : s.min = d.2.min := by rw [hs_run]; exact hminv
  have hsminr : s.minRank = some d.1 := by rw [hs_run]; exact hminr
  have hemem : e ∈ entriesFor n events := by
    rw [hsplit]
    exact List.mem_append.mpr (Or.inr (List.mem_cons_self e l2))
  have hdmem : d ∈ entriesFor n events := by
    rw [hsplit2]
    exact List.mem_append.mpr (Or.inr (List.mem_cons_self d m2))
  have he_l2 : ∀ y ∈ l2, e.1 < y.1 := by
    rw [hsplit] at hranks
    have h2 := (List.pairwise_append.mp hranks).2.1
    exact (List.pairwise_cons.mp h2).1
  have hd_m2 : ∀ y ∈ m2, d.1 < y.1 := by
    rw [hsplit2] at hranks
    have h2 := (List.pairwise_append.mp hranks).2.1
    exact (List.pairwise_cons.mp h2).1
  refine ⟨?_, ?_, ?_⟩
  · intro x hx
    constructor
    · rw [hsmax]
      rw [hsplit] at hx
      rcases List.mem_append.mp hx with h | h
      · exact le_of_lt (hl1 x h)
      · rcases List.mem_cons.mp h with rfl | h2
        · exact le_refl _
        · exact hl2 x h2
    · rw [hsmin]
      rw [hsplit2] at hx
      rcases List.mem_append.mp hx with h | h
      · exact le_of_lt (hm1 x h)
      · rcases List.mem_cons.mp h with rfl | h2
        · exact le_refl _
        · exact hm2 x h2
  · refine ⟨e, hemem, hsmaxr, hsmax.symm, ?_⟩
    intro y hy hymax
    rw [hsplit] at hy
    rcases List.mem_append.mp hy with h | h
    · exfalso
      have := hl1 y h
      rw [hymax, hsmax] at this
      exact lt_irrefl _ this
    · rcases List.mem_cons.mp h with rfl | h2
      · exact le_refl _
      · exact le_of_lt (he_l2 y h2)
  · refine ⟨d, hdmem, hsminr, hsmin.symm, ?_⟩
    intro y hy hymin
    rw [hsplit2] at hy
    rcases List.mem_append.mp hy with h | h
    · exfalso
      have := hm1 y h
      rw [hymin, hsmin] at this
      exact lt_irrefl _ this
    · rcases List.mem_cons.mp h with rfl | h2
      · exact le_refl _
      · exact le_of_lt (hd_m2 y h2)

/-- One per-rank aggregate for the concrete cross-rank scenario: a single
"compute" event with the given accumulated duration. -/
def edC (v : Int) : EventData :=
  { name := "compute", max := v, min := v, total := v, count := 1 }

/-- Rank 0 of the concrete scenario: 10 ms. -/
def rkC0 : RankData := { evData := [("compute", edC (10 * nsPerMs))] }

/-- Rank 1 of the concrete scenario: 50 ms. -/
def rkC1 : RankData := { evData := [("compute", edC (50 * nsPerMs))] }

/-- Rank 2 of the concrete scenario: 30 ms. -/
def rkC2 : RankData := { evData := [("compute", edC (30 * nsPerMs))] }

/-- The stats entry `getGlobalStats` computes for the concrete scenario. -/
def sC : GlobalEventStats :=
  { maxRank := some 1, minRank := some 0, max := 50 * nsPerMs, min := 10 * nsPerMs }

set_option maxRecDepth 4000 in
theorem getGlobalStats_extremal_witness :
    ∃ x ∈ entriesFor "compute" [rkC0, rkC1, rkC2], sC.maxRank = some x.1 ∧
      x.2.max = sC.max ∧ ∀ y ∈ entriesFor "compute" [rkC0, rkC1, rkC2],
        y.2.max = sC.max → x.1 ≤ y.1 :=
  (getGlobalStats_extremal [rkC0, rkC1, rkC2] "compute" sC (by decide) (by decide)
    (by decide) (by decide)).2.1

/-! ### Claim C10: sentinel-only names leave the extremal ranks unassigned -/

/-- C10: if every collected aggregate for a name still holds the sentinel
extrema (nothing was ever merged), `getGlobalStats` never assigns `maxRank`
or `minRank` for that name and the rank ids keep their indeterminate
(uninitialised) value; conversely a reported rank id exists only when some
aggregate's max strictly exceeds the sentinel minimum (resp. its min is
strictly below the sentinel maximum), and the reported id is such an
aggregate's rank. -/
theorem sentinel_ranks_unassigned :
    (∀ (events : List RankData) (n : String) (s : GlobalEventStats),
      (getGlobalStats events).lookup n = some s →
      (∀ x ∈ entriesFor n events, x.2.max = sentinelMin ∧ x.2.min = sentinelMax) →
      s.maxRank = none ∧ s.minRank = none) ∧
    (∀ (events : List RankData) (n : String) (s : GlobalEventStats),
      (getGlobalStats events).lookup n = some s →
      (∀ r, s.maxRank = some r →
        ∃ x ∈ entriesFor n events, sentinelMin < x.2.max ∧ x.1 = r) ∧
      (∀ r, s.minRank = some r →
        ∃ x ∈ entriesFor n events, x.2.min < sentinelMax ∧ x.1 = r)) := by
  constructor
  · intro events n s hlook hall
    have hs_run := lookup_some_statsRun hlook
    constructor
    · rcases statsRun_max_char (entriesFor n events) {} with ⟨ha, hb, hc⟩ |
        ⟨l1, e, l2, hsplit, ha, hb, hlt, hl1, hl2⟩
      · rw [hs_run, hb]
      · exfalso
        have hemem : e ∈ entriesFor n events := by
          rw [hsplit]
          exact List.mem_append.mpr (Or.inr (List.mem_cons_self e l2))
        have := (hall e hemem).1
        rw [defaultStats_fields.1] at hlt
        omega
    · rcases statsRun_min_char (entriesFor n events) {} with ⟨ha, hb, hc⟩ |
        ⟨l1, e, l2, hsplit, ha, hb, hlt, hl1, hl2⟩
      · rw [hs_run, hb]
      · exfalso
        have hemem : e ∈ entriesFor n events := by
          rw [hsplit]
          exact List.mem_append.mpr (Or.inr (List.mem_cons_self e l2))
        have := (hall e hemem).2
        rw [defaultStats_fields.2.1] at hlt
        omega
  · intro events n s hlook
    have hs_run := lookup_some_statsRun hlook
    constructor
    · intro r hr
      rcases statsRun_max_char (entriesFor n events) {} with ⟨ha, hb, hc⟩ |
        ⟨l1, e, l2, hsplit, ha, hb, hlt, hl1, hl2⟩
      · exfalso
        rw [hs_run, hb, defaultStats_fields.2.2.1] at hr
        exact Option.noConfusion hr
      · have hemem : e ∈ entriesFor n events := by
          rw [hsplit]
          exact List.mem_append.mpr (Or.inr (List.mem_cons_self e l2))
        rw [defaultStats_fields.1] at hlt
        rw [hs_run, hb] at hr
        exact ⟨e, hemem, hlt, Option.some_inj.mp hr⟩
    · intro r hr
      rcases statsRun_min_char (entriesFor n events) {} with ⟨ha, hb, hc⟩ |
        ⟨l1, e, l2, hsplit, ha, hb, hlt, hl1, hl2⟩
      · exfalso
        rw [hs_run, hb, defaultStats_fields.2.2.2] at hr
        exact Option.noConfusion hr
      · have hemem : e ∈ entriesFor n events := by
          rw [hsplit]
          exact List.mem_append.mpr (Or.inr (List.mem_cons_self e l2))
        rw [defaultStats_fields.2.1] at hlt
        rw [hs_run, hb] at hr
        exact ⟨e, hemem, hlt, Option.some_inj.mp hr⟩

/-- A sentinel-only aggregate (never merged): max and min still hold the
duration sentinels. -/
def edS : EventData := { name := "p" }

/-- A one-rank global snapshot holding only the sentinel aggregate. -/
def rkS : RankData := { evData := [("p", edS)] }

theorem sentinel_ranks_unassigned_witness :
    ({} : GlobalEventStats).maxRank = none ∧
    ({} : GlobalEventStats).minRank = none :=
  sentinel_ranks_unassigned.1 [rkS] "p" {} (by decide) (by decide)

/-! ### The collection protocol -/

end EventTimings
